import Mathlib

/-!
Verification of the caching / rate-limiting / retry layer of
`PropertyMatchmaker` (src/modelling/function_gemini.py).

The shallow embedding below translates the relevant Python code:
  * `_rate_limit` (rolling 60-second window throttle over a timestamp log),
  * `search_properties` (MD5-keyed query cache plus a bounded retry loop
    with linear backoff for rate-limit-classified errors),
  * the MD5/hex cache-key computation `hashlib.md5(q.strip().lower().encode()).hexdigest()`.

Time (Python `time.time()` floats) is idealized as `ℚ`; the only way the
clock advances inside a call is an explicit `time.sleep`, so the timestamp
appended by `_rate_limit` is `now + slept`.  The external LangChain agent
is an opaque oracle `String → ℕ → AgentResult` (prompt, attempt index).
-/

/-! ### Python string primitives (`str.strip`, `str.lower`, `str.encode`) -/

/-- Python `str.isspace` on the ASCII whitespace characters that `str.strip`
removes (the Unicode-only whitespace code points are irrelevant here). -/
def pyIsSpace (c : Char) : Bool :=
  c = ' ' || c = '\t' || c = '\n' || c = '\r' || c = '\x0b' || c = '\x0c'

/-- Python `str.lower` on a single character (ASCII case mapping; the claims
only involve ASCII text). -/
def pyLowerChar (c : Char) : Char :=
  if 'A' ≤ c ∧ c ≤ 'Z' then Char.ofNat (c.toNat + 32) else c

/-- Python `str.lower`. -/
def pyLower (s : String) : String :=
  ⟨s.toList.map pyLowerChar⟩

/-- Python `str.strip`: drop leading and trailing whitespace. -/
def pyStrip (s : String) : String :=
  ⟨((s.toList.dropWhile pyIsSpace).reverse.dropWhile pyIsSpace).reverse⟩

/-- The query normalization performed in `search_properties`:
`user_query.strip().lower()`. -/
def pyNormalize (q : String) : String :=
  pyLower (pyStrip q)

/-- UTF-8 encoding of a single code point (Python `str.encode()`), as bytes. -/
def utf8EncodeChar (n : ℕ) : List ℕ :=
  if n < 128 then [n]
  else if n < 2048 then [192 + n / 64, 128 + n % 64]
  else if n < 65536 then [224 + n / 4096, 128 + n / 64 % 64, 128 + n % 64]
  else [240 + n / 262144, 128 + n / 4096 % 64, 128 + n / 64 % 64, 128 + n % 64]

/-- Python `str.encode()` (UTF-8) as a byte list. -/
def strEncode (s : String) : List ℕ :=
  s.toList.foldr (fun c acc => utf8EncodeChar c.toNat ++ acc) []

/-- Substring test on character lists (Python `needle in hay`). -/
def strContainsSub (needle : List Char) : List Char → Bool
  | [] => needle.isEmpty
  | c :: t => if needle.isPrefixOf (c :: t) then true else strContainsSub needle t

/-- The error classification in `search_properties`:
`"429" in err_str or "rate" in err_str or "resource_exhausted" in err_str`
where `err_str = str(e).lower()`. -/
def isRateLimitErr (msg : String) : Bool :=
  let e := (pyLower msg).toList
  strContainsSub ("429".toList) e || strContainsSub ("rate".toList) e ||
    strContainsSub ("resource_exhausted".toList) e

/-! ### MD5 (`hashlib.md5`), over byte lists, words as `ℕ` mod `2 ^ 32` -/

/-- 32-bit modulus. -/
def w32 : ℕ := 2 ^ 32

/-- Bitwise complement within 32 bits (inputs are kept `< 2 ^ 32`). -/
def mnot (x : ℕ) : ℕ := x ^^^ (w32 - 1)

/-- 32-bit left rotation (for `x < 2 ^ 32`, `n ≤ 32`). -/
def rotl (x n : ℕ) : ℕ := ((x <<< n) % w32) ||| (x >>> (32 - n))

/-- MD5 per-round shift amounts. -/
def md5Shifts : List ℕ :=
  [7, 12, 17, 22, 7, 12, 17, 22, 7, 12, 17, 22, 7, 12, 17, 22,
   5, 9, 14, 20, 5, 9, 14, 20, 5, 9, 14, 20, 5, 9, 14, 20,
   4, 11, 16, 23, 4, 11, 16, 23, 4, 11, 16, 23, 4, 11, 16, 23,
   6, 10, 15, 21, 6, 10, 15, 21, 6, 10, 15, 21, 6, 10, 15, 21]

/-- MD5 sine-derived additive constants. -/
def md5Consts : List ℕ :=
  [0xd76aa478, 0xe8c7b756, 0x242070db, 0xc1bdceee,
   0xf57c0faf, 0x4787c62a, 0xa8304613, 0xfd469501,
   0x698098d8, 0x8b44f7af, 0xffff5bb1, 0x895cd7be,
   0x6b901122, 0xfd987193, 0xa679438e, 0x49b40821,
   0xf61e2562, 0xc040b340, 0x265e5a51, 0xe9b6c7aa,
   0xd62f105d, 0x02441453, 0xd8a1e681, 0xe7d3fbc8,
   0x21e1cde6, 0xc33707d6, 0xf4d50d87, 0x455a14ed,
   0xa9e3e905, 0xfcefa3f8, 0x676f02d9, 0x8d2a4c8a,
   0xfffa3942, 0x8771f681, 0x6d9d6122, 0xfde5380c,
   0xa4beea44, 0x4bdecfa9, 0xf6bb4b60, 0xbebfbc70,
   0x289b7ec6, 0xeaa127fa, 0xd4ef3085, 0x04881d05,
   0xd9d4d039, 0xe6db99e5, 0x1fa27cf8, 0xc4ac5665,
   0xf4292244, 0x432aff97, 0xab9423a7, 0xfc93a039,
   0x655b59c3, 0x8f0ccc92, 0xffeff47d, 0x85845dd1,
   0x6fa87e4f, 0xfe2ce6e0, 0xa3014314, 0x4e0811a1,
   0xf7537e82, 0xbd3af235, 0x2ad7d2bb, 0xeb86d391]

/-- MD5 nonlinear mixing function for round `i` on words `b c d`. -/
def md5Mix (i b c d : ℕ) : ℕ :=
  if i < 16 then (b &&& c) ||| (mnot b &&& d)
  else if i < 32 then (d &&& b) ||| (mnot d &&& c)
  else if i < 48 then b ^^^ c ^^^ d
  else c ^^^ (b ||| mnot d)

/-- MD5 message-word index for round `i`. -/
def md5MsgIdx (i : ℕ) : ℕ :=
  if i < 16 then i
  else if i < 32 then (5 * i + 1) % 16
  else if i < 48 then (3 * i + 5) % 16
  else (7 * i) % 16

/-- Little-endian 4-byte serialization of a 32-bit word. -/
def wordBytesLE (x : ℕ) : List ℕ :=
  [x % 256, x / 256 % 256, x / 65536 % 256, x / 16777216 % 256]

/-- Little-endian 8-byte serialization of the 64-bit message bit length. -/
def lenBytesLE (x : ℕ) : List ℕ :=
  [x % 256, x / 2 ^ 8 % 256, x / 2 ^ 16 % 256, x / 2 ^ 24 % 256,
   x / 2 ^ 32 % 256, x / 2 ^ 40 % 256, x / 2 ^ 48 % 256, x / 2 ^ 56 % 256]

/-- MD5 padding: append `0x80`, zero-pad to 56 mod 64 bytes, then the
little-endian 64-bit bit length. -/
def md5Pad (msg : List ℕ) : List ℕ :=
  let len := msg.length
  msg ++ [128] ++ List.replicate ((119 - len % 64) % 64) 0 ++
    lenBytesLE (len * 8 % 2 ^ 64)

/-- Split a byte list into 64-byte blocks. -/
def toBlocks : List ℕ → List (List ℕ)
  | [] => []
  | b :: t => (b :: t).take 64 :: toBlocks ((b :: t).drop 64)
termination_by l => l.length
decreasing_by simp [List.drop]; omega

/-- The sixteen little-endian 32-bit message words of one 64-byte block. -/
def blockWord (blk : List ℕ) (i : ℕ) : ℕ :=
  blk.getD (4 * i) 0 + blk.getD (4 * i + 1) 0 * 256 +
    blk.getD (4 * i + 2) 0 * 65536 + blk.getD (4 * i + 3) 0 * 16777216

/-- One of the 64 MD5 operations: rotate the running state `(a, b, c, d)`. -/
def md5Op (M : ℕ → ℕ) (st : ℕ × ℕ × ℕ × ℕ) (i : ℕ) : ℕ × ℕ × ℕ × ℕ :=
  let a := st.1; let b := st.2.1; let c := st.2.2.1; let d := st.2.2.2
  let f := (a + md5Mix i b c d + md5Consts.getD i 0 + M (md5MsgIdx i)) % w32
  (d, (b + rotl f (md5Shifts.getD i 0)) % w32, b, c)

/-- MD5 compression of a single 64-byte block into the chaining state. -/
def md5Block (st : ℕ × ℕ × ℕ × ℕ) (blk : List ℕ) : ℕ × ℕ × ℕ × ℕ :=
  let r := (List.range 64).foldl (md5Op (blockWord blk)) st
  ((st.1 + r.1) % w32, (st.2.1 + r.2.1) % w32,
   (st.2.2.1 + r.2.2.1) % w32, (st.2.2.2 + r.2.2.2) % w32)

/-- MD5 digest of a byte list: sixteen bytes. -/
def md5Digest (msg : List ℕ) : List ℕ :=
  let st := (toBlocks (md5Pad msg)).foldl md5Block
    (0x67452301, 0xefcdab89, 0x98badcfe, 0x10325476)
  wordBytesLE st.1 ++ wordBytesLE st.2.1 ++ wordBytesLE st.2.2.1 ++ wordBytesLE st.2.2.2

/-- Lowercase hex digit for a value `< 16`. -/
def hexDigitChar (n : ℕ) : Char :=
  "0123456789abcdef".toList.getD n '0'

/-- Two lowercase hex characters of one byte. -/
def byteHex (b : ℕ) : List Char :=
  [hexDigitChar (b / 16 % 16), hexDigitChar (b % 16)]

/-- Python `hashlib.md5(bytes).hexdigest()`. -/
def md5Hex (msg : List ℕ) : String :=
  ⟨(md5Digest msg).foldr (fun b acc => byteHex b ++ acc) []⟩

/-- The cache key of `search_properties`:
`hashlib.md5(user_query.strip().lower().encode()).hexdigest()`. -/
def cacheKey (q : String) : String :=
  md5Hex (strEncode (pyNormalize q))

/-! ### The query cache (`self._cache`, a Python dict keyed by hex digests) -/

/-- Dict lookup `cache[key]` / `key in cache` as an association list. -/
def cacheLookup (cache : List (String × String)) (k : String) : Option String :=
  match cache with
  | [] => none
  | (k', v) :: rest => if k' = k then some v else cacheLookup rest k

/-- Dict assignment `cache[key] = value`. -/
def cacheInsert (cache : List (String × String)) (k v : String) :
    List (String × String) :=
  match cache with
  | [] => [(k, v)]
  | (k', v') :: rest =>
    if k' = k then (k, v) :: rest else (k', v') :: cacheInsert rest k v

/-! ### The throttle `_rate_limit` -/

/-- The pruning step of `_rate_limit`:
`[t for t in self._request_times if now - t < 60]`. -/
def pruneLog (now : ℚ) (times : List ℚ) : List ℚ :=
  times.filter (fun t => decide (now - t < 60))

/-- One `_rate_limit(max_rpm)` call at time `now`.  Returns the updated
timestamp log and the slept duration.  The appended timestamp models the
second `time.time()` call, i.e. `now` plus the time slept.  (The source
indexes `pruned[0]`, only reachable with `max_rpm ≥ 1`, as in the program
where `max_rpm = 10`; `headD` supplies an irrelevant default.) -/
def rateLimit (maxRpm : ℕ) (now : ℚ) (times : List ℚ) : List ℚ × ℚ :=
  let pruned := pruneLog now times
  let slept :=
    if maxRpm ≤ pruned.length then
      let wait := 60 - (now - pruned.headD 0)
      if 0 < wait then wait else 0
    else 0
  (pruned ++ [now + slept], slept)

/-- One sequential call to `_rate_limit` after an idle delay `d`: the state is
(current clock, timestamp log, history of all appended timestamps). -/
def throttleStep (k : ℕ) (st : ℚ × List ℚ × List ℚ) (d : ℚ) : ℚ × List ℚ × List ℚ :=
  let now := st.1 + d
  let r := rateLimit k now st.2.1
  (now + r.2, r.1, st.2.2 ++ [now + r.2])

/-- A whole single-threaded session of sequential `_rate_limit` calls,
starting from the empty log of `__init__`, one call per idle delay in `ds`. -/
def throttleTrace (k : ℕ) (t0 : ℚ) (ds : List ℚ) : ℚ × List ℚ × List ℚ :=
  ds.foldl (throttleStep k) (t0, [], [])

/-! ### The external agent boundary and the retry loop -/

/-- Outcome of one `self.agent.invoke(...)` call: the `"output"` field of the
response, or a raised exception rendered as `str(e)`. -/
inductive AgentResult where
  | ok (out : String)
  | err (msg : String)

/-- Result of the `for attempt in range(max_retries)` loop. -/
inductive LoopRes where
  | success (out : String)
  | raised (msg : String)
  | exhausted
deriving DecidableEq

/-- Observable outcome of the retry loop: its result, the number of agent
invocations made, and the total seconds slept in backoff. -/
structure LoopOut where
  res : LoopRes
  calls : ℕ
  slept : ℕ
deriving DecidableEq

/-- The backoff sleep of one rate-limited attempt: `wait = (attempt + 1) * 40`. -/
def backoffWait (attempt : ℕ) : ℕ := (attempt + 1) * 40

/-- Sum of the backoff sleeps of `n` consecutive rate-limited attempts
starting at attempt index `a`. -/
def backoffSum (a n : ℕ) : ℕ :=
  match n with
  | 0 => 0
  | n + 1 => backoffWait a + backoffSum (a + 1) n

/-- The retry loop of `search_properties`: `fuel` remaining iterations of
`for attempt in range(max_retries)`, current attempt index `attempt`.
A rate-limit-classified error sleeps `backoffWait attempt` and retries;
any other error propagates; running out of fuel falls through. -/
def runAttempts (invoke : ℕ → AgentResult) (attempt fuel : ℕ) : LoopOut :=
  match fuel with
  | 0 => ⟨.exhausted, 0, 0⟩
  | fuel + 1 =>
    match invoke attempt with
    | .ok out => ⟨.success out, 1, 0⟩
    | .err m =>
      if isRateLimitErr m then
        let rest := runAttempts invoke (attempt + 1) fuel
        ⟨rest.res, rest.calls + 1, rest.slept + backoffWait attempt⟩
      else ⟨.raised m, 1, 0⟩

/-- The fixed instructional preamble (`system_prompt` in `search_properties`). -/
def systemPrompt : String :=
  "You are a smart property search agent. Your goal is to find the right match of properties based on the user's query. " ++
  "Queries may not be structured properly, therefore use your intelligence to understand the query well. " ++
  "Determine if the request is for sale or rent. " ++
  "Find properties that match the query and pick only the active ones. " ++
  "If a specific requirement (like a pool) isn't met exactly, suggest the closest match. " ++
  "Always return the Ref No, Location/Building Name, Size, No of Bedrooms, Price, and a short 'Why it fits' summary for each matching property."

/-- The full instruction passed to `agent.invoke`. -/
def promptOf (userQuery : String) : String :=
  systemPrompt ++ "\n\nUser Request: " ++ userQuery

/-- The soft-failure sentinel returned when all retries are exhausted. -/
def sentinelMessage : String :=
  "❌ Could not complete search — rate limit exceeded. Please try again in a few minutes."

/-- Full observable outcome of one `search_properties` call.  `result` is
`.error msg` when the call raises, `.ok text` when it returns normally. -/
structure SearchOut where
  result : Except String String
  cache : List (String × String)
  requestTimes : List ℚ
  clock : ℚ
  agentCalls : ℕ
  backoffSlept : ℕ
  throttleSlept : ℚ

/-- `search_properties(user_query, max_retries)` on explicit state: the
cache, the timestamp log and the current clock.  On a cache hit it returns
the stored result with no other effect; on a miss it performs exactly one
`_rate_limit()` call (with the source's default `max_rpm = 10`) and then
runs the retry loop; only a successful attempt stores into the cache. -/
def searchProperties (agent : String → ℕ → AgentResult)
    (cache : List (String × String)) (requestTimes : List ℚ) (clock : ℚ)
    (userQuery : String) (maxRetries : ℕ) : SearchOut :=
  let key := cacheKey userQuery
  match cacheLookup cache key with
  | some v => ⟨.ok v, cache, requestTimes, clock, 0, 0, 0⟩
  | none =>
    let rl := rateLimit 10 clock requestTimes
    let lo := runAttempts (fun i => agent (promptOf userQuery) i) 0 maxRetries
    let clock1 := clock + rl.2 + (lo.slept : ℚ)
    match lo.res with
    | .success out =>
      ⟨.ok out, cacheInsert cache key out, rl.1, clock1, lo.calls, lo.slept, rl.2⟩
    | .raised m => ⟨.error m, cache, rl.1, clock1, lo.calls, lo.slept, rl.2⟩
    | .exhausted =>
      ⟨.ok sentinelMessage, cache, rl.1, clock1, lo.calls, lo.slept, rl.2⟩

/-- Times at which the retry loop invokes the agent, mirroring
`runAttempts`: the first attempt runs at `t` (the moment `_rate_limit`
returned), and after a rate-limit-classified failure at attempt index
`attempt` the next attempt runs `backoffWait attempt` seconds later.  Agent
invocations themselves take no model time (the documented sleep-only clock
idealization). -/
def attemptTimes (invoke : ℕ → AgentResult) : ℕ → ℕ → ℚ → List ℚ
  | _, 0, _ => []
  | attempt, fuel + 1, t =>
    match invoke attempt with
    | .ok _ => [t]
    | .err m =>
      if isRateLimitErr m then
        t :: attemptTimes invoke (attempt + 1) fuel (t + (backoffWait attempt : ℚ))
      else [t]

/-- The times of the external agent invocations made by one
`search_properties` call: none on a cache hit; on a miss the first attempt
runs when the single `_rate_limit` call returns — at `clock` plus the
throttle sleep — and retries follow after their backoff sleeps, without any
further throttle acquisition (as in the source loop, lines 92–107). -/
def searchCallTimes (agent : String → ℕ → AgentResult)
    (cache : List (String × String)) (requestTimes : List ℚ) (clock : ℚ)
    (userQuery : String) (maxRetries : ℕ) : List ℚ :=
  match cacheLookup cache (cacheKey userQuery) with
  | some _ => []
  | none =>
    attemptTimes (fun i => agent (promptOf userQuery) i) 0 maxRetries
      (clock + (rateLimit 10 clock requestTimes).2)

/-- One search of a sequential session: its query, the agent's behavior
during it, and its `max_retries`. -/
structure SessionSearch where
  query : String
  agent : String → ℕ → AgentResult
  maxRetries : ℕ

/-- Running state of a sequential session: the object's mutable fields plus
the history of all external agent invocation times so far. -/
structure SessionAcc where
  cache : List (String × String)
  requestTimes : List ℚ
  clock : ℚ
  callTimes : List ℚ

/-- One sequential `search_properties` call of a session. -/
def sessionStep (st : SessionAcc) (s : SessionSearch) : SessionAcc :=
  let o := searchProperties s.agent st.cache st.requestTimes st.clock s.query s.maxRetries
  ⟨o.cache, o.requestTimes, o.clock,
    st.callTimes ++ searchCallTimes s.agent st.cache st.requestTimes st.clock s.query s.maxRetries⟩

/-- A whole session of sequential searches on the freshly constructed
object (empty cache and log) starting at time 0. -/
def sessionRun (searches : List SessionSearch) : SessionAcc :=
  searches.foldl sessionStep ⟨[], [], 0, []⟩

/-! ### Lemmas about the retry loop -/

/-- Closed form of the accumulated backoff of `n` rate-limited attempts
starting at attempt `a`: an arithmetic (not geometric) series. -/
theorem backoffSum_eq (a n : ℕ) : backoffSum a n = 40 * n * a + 20 * n * (n + 1) := by
  induction n generalizing a with
  | zero => simp [backoffSum]
  | succ n ih => simp only [backoffSum, backoffWait, ih]; ring

/-- If every attempt the loop can make fails with a rate-limit-classified
error, the loop exhausts its fuel, invoking the agent once per iteration and
sleeping the full backoff series. -/
theorem runAttempts_exhausted (invoke : ℕ → AgentResult) (a fuel : ℕ)
    (h : ∀ i, i < fuel → ∃ m, invoke (a + i) = .err m ∧ isRateLimitErr m = true) :
    runAttempts invoke a fuel = ⟨.exhausted, fuel, backoffSum a fuel⟩ := by
  induction fuel generalizing a with
  | zero => simp [runAttempts, backoffSum]
  | succ fuel ih =>
    obtain ⟨m, hm, hrl⟩ := h 0 (Nat.succ_pos _)
    rw [Nat.add_zero] at hm
    have ih' := ih (a + 1) (fun i hi => by
      obtain ⟨m', hm', hrl'⟩ := h (i + 1) (by omega)
      exact ⟨m', by rw [show a + 1 + i = a + (i + 1) by omega]; exact hm', hrl'⟩)
    simp [runAttempts, hm, hrl, ih', backoffSum, Nat.add_comm]

/-- If the first `r` attempts fail with rate-limit-classified errors and
attempt `a + r` succeeds, and the loop has fuel to reach it, the loop
returns that output after `r + 1` invocations. -/
theorem runAttempts_success (invoke : ℕ → AgentResult) (a r fuel : ℕ) (out : String)
    (h : ∀ i, i < r → ∃ m, invoke (a + i) = .err m ∧ isRateLimitErr m = true)
    (hok : invoke (a + r) = .ok out) (hlt : r < fuel) :
    runAttempts invoke a fuel = ⟨.success out, r + 1, backoffSum a r⟩ := by
  induction r generalizing a fuel with
  | zero =>
    obtain ⟨fuel, rfl⟩ := Nat.exists_eq_succ_of_ne_zero (Nat.pos_iff_ne_zero.mp hlt)
    rw [Nat.add_zero] at hok
    simp [runAttempts, hok, backoffSum]
  | succ r ih =>
    obtain ⟨fuel, rfl⟩ := Nat.exists_eq_succ_of_ne_zero
      (Nat.pos_iff_ne_zero.mp (Nat.lt_of_le_of_lt (Nat.zero_le _) hlt))
    obtain ⟨m, hm, hrl⟩ := h 0 (Nat.succ_pos _)
    rw [Nat.add_zero] at hm
    have ih' := ih (a + 1) fuel
      (fun i hi => by
        obtain ⟨m', hm', hrl'⟩ := h (i + 1) (by omega)
        exact ⟨m', by rw [show a + 1 + i = a + (i + 1) by omega]; exact hm', hrl'⟩)
      (by rw [show a + 1 + r = a + (r + 1) by omega]; exact hok)
      (by omega)
    simp [runAttempts, hm, hrl, ih', backoffSum, Nat.add_comm]

/-- If the first `j` attempts fail with rate-limit-classified errors and
attempt `a + j` fails with an error not classified as rate-limit, the loop
propagates that error after `j + 1` invocations, sleeping only the earlier
backoffs and nothing on the failing attempt. -/
theorem runAttempts_raised (invoke : ℕ → AgentResult) (a j fuel : ℕ) (m : String)
    (h : ∀ i, i < j → ∃ m', invoke (a + i) = .err m' ∧ isRateLimitErr m' = true)
    (hraise : invoke (a + j) = .err m) (hnrl : isRateLimitErr m = false)
    (hlt : j < fuel) :
    runAttempts invoke a fuel = ⟨.raised m, j + 1, backoffSum a j⟩ := by
  induction j generalizing a fuel with
  | zero =>
    obtain ⟨fuel, rfl⟩ := Nat.exists_eq_succ_of_ne_zero (Nat.pos_iff_ne_zero.mp hlt)
    rw [Nat.add_zero] at hraise
    simp [runAttempts, hraise, hnrl, backoffSum]
  | succ j ih =>
    obtain ⟨fuel, rfl⟩ := Nat.exists_eq_succ_of_ne_zero
      (Nat.pos_iff_ne_zero.mp (Nat.lt_of_le_of_lt (Nat.zero_le _) hlt))
    obtain ⟨m', hm', hrl'⟩ := h 0 (Nat.succ_pos _)
    rw [Nat.add_zero] at hm'
    have ih' := ih (a + 1) fuel
      (fun i hi => by
        obtain ⟨m'', hm'', hrl''⟩ := h (i + 1) (by omega)
        exact ⟨m'', by rw [show a + 1 + i = a + (i + 1) by omega]; exact hm'', hrl''⟩)
      (by rw [show a + 1 + j = a + (j + 1) by omega]; exact hraise)
      (by omega)
    simp [runAttempts, hm', hrl', ih', backoffSum, Nat.add_comm]

/-! ### Unfolding lemmas for `searchProperties` -/

/-- Cache hit: the stored result is returned and nothing else happens. -/
theorem searchProperties_hit (agent : String → ℕ → AgentResult)
    (cache : List (String × String)) (times : List ℚ) (clock : ℚ)
    (q : String) (mr : ℕ) (v : String)
    (hhit : cacheLookup cache (cacheKey q) = some v) :
    searchProperties agent cache times clock q mr = ⟨.ok v, cache, times, clock, 0, 0, 0⟩ := by
  simp [searchProperties, hhit]

/-- Cache miss, loop succeeds: result cached and returned. -/
theorem searchProperties_miss_success (agent : String → ℕ → AgentResult)
    (cache : List (String × String)) (times : List ℚ) (clock : ℚ)
    (q : String) (mr : ℕ) (out : String)
    (hmiss : cacheLookup cache (cacheKey q) = none)
    (hres : (runAttempts (fun i => agent (promptOf q) i) 0 mr).res = .success out) :
    searchProperties agent cache times clock q mr =
      ⟨.ok out, cacheInsert cache (cacheKey q) out, (rateLimit 10 clock times).1,
        clock + (rateLimit 10 clock times).2 +
          ((runAttempts (fun i => agent (promptOf q) i) 0 mr).slept : ℚ),
        (runAttempts (fun i => agent (promptOf q) i) 0 mr).calls,
        (runAttempts (fun i => agent (promptOf q) i) 0 mr).slept,
        (rateLimit 10 clock times).2⟩ := by
  simp only [searchProperties, hmiss]
  rw [hres]

/-- Cache miss, loop raises: the exception propagates, cache unchanged. -/
theorem searchProperties_miss_raised (agent : String → ℕ → AgentResult)
    (cache : List (String × String)) (times : List ℚ) (clock : ℚ)
    (q : String) (mr : ℕ) (m : String)
    (hmiss : cacheLookup cache (cacheKey q) = none)
    (hres : (runAttempts (fun i => agent (promptOf q) i) 0 mr).res = .raised m) :
    searchProperties agent cache times clock q mr =
      ⟨.error m, cache, (rateLimit 10 clock times).1,
        clock + (rateLimit 10 clock times).2 +
          ((runAttempts (fun i => agent (promptOf q) i) 0 mr).slept : ℚ),
        (runAttempts (fun i => agent (promptOf q) i) 0 mr).calls,
        (runAttempts (fun i => agent (promptOf q) i) 0 mr).slept,
        (rateLimit 10 clock times).2⟩ := by
  simp only [searchProperties, hmiss]
  rw [hres]

/-- Cache miss, loop exhausted: the sentinel is returned, cache unchanged. -/
theorem searchProperties_miss_exhausted (agent : String → ℕ → AgentResult)
    (cache : List (String × String)) (times : List ℚ) (clock : ℚ)
    (q : String) (mr : ℕ)
    (hmiss : cacheLookup cache (cacheKey q) = none)
    (hres : (runAttempts (fun i => agent (promptOf q) i) 0 mr).res = .exhausted) :
    searchProperties agent cache times clock q mr =
      ⟨.ok sentinelMessage, cache, (rateLimit 10 clock times).1,
        clock + (rateLimit 10 clock times).2 +
          ((runAttempts (fun i => agent (promptOf q) i) 0 mr).slept : ℚ),
        (runAttempts (fun i => agent (promptOf q) i) 0 mr).calls,
        (runAttempts (fun i => agent (promptOf q) i) 0 mr).slept,
        (rateLimit 10 clock times).2⟩ := by
  simp only [searchProperties, hmiss]
  rw [hres]

/-! ### C1 and C4: retry-loop behavior of `search_properties` -/

/-- C1: for every (uncached) query and every r ≥ 0, if the agent raises a
rate-limit-classified error on each of its first r invocations and then
succeeds, `search_properties(query, max_retries)` returns the agent's
successful output (after r + 1 invocations) when max_retries > r, and
returns the soft-failure sentinel message, without raising, when
max_retries ≤ r. -/
theorem searchProperties_retry_spec (agent : String → ℕ → AgentResult)
    (cache : List (String × String)) (times : List ℚ) (clock : ℚ)
    (q : String) (r mr : ℕ) (out : String)
    (hmiss : cacheLookup cache (cacheKey q) = none)
    (herr : ∀ i, i < r → ∃ m, agent (promptOf q) i = .err m ∧ isRateLimitErr m = true)
    (hok : agent (promptOf q) r = .ok out) :
    (r < mr → (searchProperties agent cache times clock q mr).result = .ok out ∧
      (searchProperties agent cache times clock q mr).agentCalls = r + 1) ∧
    (mr ≤ r → (searchProperties agent cache times clock q mr).result = .ok sentinelMessage ∧
      (searchProperties agent cache times clock q mr).agentCalls = mr) := by
  constructor
  · intro hlt
    have hrun : runAttempts (fun i => agent (promptOf q) i) 0 mr =
        ⟨.success out, r + 1, backoffSum 0 r⟩ :=
      runAttempts_success _ 0 r mr out (fun i hi => by simpa using herr i hi)
        (by simpa using hok) hlt
    rw [searchProperties_miss_success agent cache times clock q mr out hmiss (by rw [hrun]),
      hrun]
    exact ⟨rfl, rfl⟩
  · intro hle
    have hrun : runAttempts (fun i => agent (promptOf q) i) 0 mr =
        ⟨.exhausted, mr, backoffSum 0 mr⟩ :=
      runAttempts_exhausted _ 0 mr
        (fun i hi => by simpa using herr i (Nat.lt_of_lt_of_le hi hle))
    rw [searchProperties_miss_exhausted agent cache times clock q mr hmiss (by rw [hrun]),
      hrun]
    exact ⟨rfl, rfl⟩

/-- Agent used by the C1 witness: one rate-limited failure, then success. -/
def c1Agent : String → ℕ → AgentResult :=
  fun _ i => if i = 0 then .err "429" else .ok "found"

/-- C1 witness: concrete run with r = 1, max_retries = 2. -/
theorem searchProperties_retry_spec_witness :
    cacheLookup [] (cacheKey "3 bed villa") = none ∧
    ((1 < 2 → (searchProperties c1Agent [] [] 0 "3 bed villa" 2).result = .ok "found" ∧
        (searchProperties c1Agent [] [] 0 "3 bed villa" 2).agentCalls = 1 + 1) ∧
      (2 ≤ 1 → (searchProperties c1Agent [] [] 0 "3 bed villa" 2).result = .ok sentinelMessage ∧
        (searchProperties c1Agent [] [] 0 "3 bed villa" 2).agentCalls = 2)) :=
  ⟨rfl, searchProperties_retry_spec c1Agent [] [] 0 "3 bed villa" 1 2 "found" rfl
    (fun i hi => by interval_cases i; exact ⟨"429", rfl, by decide⟩) rfl⟩

/-- C4: if (after any number of rate-limit-classified failures) the agent
raises an error whose text has no rate-limit indicator, `search_properties`
propagates that exception on that attempt: no further invocation is made and
the only backoff slept is the 20·j·(j+1) seconds of the j earlier
rate-limited attempts — in particular nothing is slept for the failing
attempt itself. -/
theorem searchProperties_nonratelimit_raises (agent : String → ℕ → AgentResult)
    (cache : List (String × String)) (times : List ℚ) (clock : ℚ)
    (q : String) (j mr : ℕ) (m : String)
    (hmiss : cacheLookup cache (cacheKey q) = none)
    (herr : ∀ i, i < j → ∃ m', agent (promptOf q) i = .err m' ∧ isRateLimitErr m' = true)
    (hraise : agent (promptOf q) j = .err m) (hnrl : isRateLimitErr m = false)
    (hlt : j < mr) :
    (searchProperties agent cache times clock q mr).result = .error m ∧
    (searchProperties agent cache times clock q mr).agentCalls = j + 1 ∧
    (searchProperties agent cache times clock q mr).backoffSlept = 20 * j * (j + 1) := by
  have hrun : runAttempts (fun i => agent (promptOf q) i) 0 mr =
      ⟨.raised m, j + 1, backoffSum 0 j⟩ :=
    runAttempts_raised _ 0 j mr m (fun i hi => by simpa using herr i hi)
      (by simpa using hraise) hnrl hlt
  rw [searchProperties_miss_raised agent cache times clock q mr m hmiss (by rw [hrun]), hrun]
  refine ⟨rfl, rfl, ?_⟩
  show backoffSum 0 j = 20 * j * (j + 1)
  rw [backoffSum_eq]
  ring

/-- C4 witness: a non-rate-limit error on the very first attempt propagates
with one invocation and zero sleep. -/
theorem searchProperties_nonratelimit_raises_witness :
    isRateLimitErr "boom" = false ∧
    ((searchProperties (fun _ _ => .err "boom") [] [] 0 "pool villa" 3).result = .error "boom" ∧
      (searchProperties (fun _ _ => .err "boom") [] [] 0 "pool villa" 3).agentCalls = 0 + 1 ∧
      (searchProperties (fun _ _ => .err "boom") [] [] 0 "pool villa" 3).backoffSlept =
        20 * 0 * (0 + 1)) :=
  ⟨by decide, searchProperties_nonratelimit_raises (fun _ _ => .err "boom") [] [] 0
    "pool villa" 0 3 "boom" rfl (fun i hi => absurd hi (by omega)) rfl (by decide)
    (by decide)⟩

/-! ### C6: the backoff is linear, not exponential -/

/-- C6 counterexample: the per-attempt backoff sleeps 40, 80, 120, … are not
of exponential form c·bⁱ in the attempt index for any constants c, b. -/
theorem backoff_not_exponential :
    ¬ ∃ c b : ℚ, ∀ i : ℕ, (backoffWait i : ℚ) = c * b ^ i := by
  rintro ⟨c, b, h⟩
  have h0 := h 0
  have h1 := h 1
  have h2 := h 2
  simp only [backoffWait] at h0 h1 h2
  push_cast at h0 h1 h2
  norm_num at h0 h1 h2
  -- h0 : 40 = c, h1 : 80 = c * b, h2 : 120 = c * b ^ 2
  subst h0
  have hb : b = 2 := by linarith
  rw [hb] at h2
  norm_num at h2

/-- C6 (amended): on each rate-limit-classified failure at 0-based attempt
index i the loop sleeps (i + 1) × 40 seconds (attempt_index × 40 with
1-based numbering); the backoff is linear — consecutive sleeps differ by the
constant 40 — and a fully rate-limited run of n attempts sleeps the
arithmetic-series total 40·n·a + 20·n·(n+1) from start attempt a. -/
theorem backoff_linear :
    (∀ i, backoffWait i = (i + 1) * 40) ∧
    (∀ i, backoffWait (i + 1) - backoffWait i = 40) ∧
    (∀ msg a fuel, isRateLimitErr msg = true →
      (runAttempts (fun _ => .err msg) a fuel).slept = 40 * fuel * a + 20 * fuel * (fuel + 1)) := by
  refine ⟨fun i => rfl, fun i => by simp [backoffWait]; omega, fun msg a fuel hrl => ?_⟩
  rw [runAttempts_exhausted (fun _ => .err msg) a fuel (fun i _ => ⟨msg, rfl, hrl⟩)]
  exact backoffSum_eq a fuel

/-- C6 witness: three fully rate-limited attempts sleep 40 + 80 + 120 = 240
seconds in total. -/
theorem backoff_linear_witness :
    isRateLimitErr "429" = true ∧
    (runAttempts (fun _ => .err "429") 0 3).slept = 40 * 3 * 0 + 20 * 3 * (3 + 1) :=
  ⟨by decide, backoff_linear.2.2 "429" 0 3 (by decide)⟩

/-! ### C3: cache hits are pure; but a failed search is not cached -/

/-- Lookup after dict assignment finds the assigned value. -/
theorem cacheLookup_insert (cache : List (String × String)) (k v : String) :
    cacheLookup (cacheInsert cache k v) k = some v := by
  induction cache with
  | nil => simp [cacheInsert, cacheLookup]
  | cons p rest ih =>
    by_cases h : p.1 = k
    · simp [cacheInsert, cacheLookup, h]
    · simp [cacheInsert, cacheLookup, h, ih]

/-- C3 (amended): a query whose normalized hash is in the cache returns the
stored result with no agent call and no state change at all; consequently,
when a first `search_properties(Q)` call's retry loop succeeds, a second
`search_properties(Q)` issues zero external calls and returns the same
result.  (When the first call fails — raised or exhausted — nothing is
cached, and a repeat may re-invoke the agent.) -/
theorem cache_hit_idempotent :
    (∀ agent cache times clock q mr v, cacheLookup cache (cacheKey q) = some v →
      searchProperties agent cache times clock q mr = ⟨.ok v, cache, times, clock, 0, 0, 0⟩) ∧
    (∀ (agent agent2 : String → ℕ → AgentResult) cache times clock clock2 q mr mr2 out,
      cacheLookup cache (cacheKey q) = none →
      (runAttempts (fun i => agent (promptOf q) i) 0 mr).res = .success out →
      (searchProperties agent2 (searchProperties agent cache times clock q mr).cache
          (searchProperties agent cache times clock q mr).requestTimes clock2 q mr2).agentCalls = 0 ∧
      (searchProperties agent2 (searchProperties agent cache times clock q mr).cache
          (searchProperties agent cache times clock q mr).requestTimes clock2 q mr2).result =
        .ok out) := by
  refine ⟨fun agent cache times clock q mr v hhit =>
    searchProperties_hit agent cache times clock q mr v hhit, ?_⟩
  intro agent agent2 cache times clock clock2 q mr mr2 out hmiss hres
  rw [searchProperties_miss_success agent cache times clock q mr out hmiss hres]
  have hhit : cacheLookup (cacheInsert cache (cacheKey q) out) (cacheKey q) = some out :=
    cacheLookup_insert cache (cacheKey q) out
  rw [searchProperties_hit agent2 _ _ clock2 q mr2 out hhit]
  exact ⟨rfl, rfl⟩

/-- C3 witness: a cache hit is returned verbatim with zero side effects, and
after a successful first call the second call makes no agent invocation. -/
theorem cache_hit_idempotent_witness :
    cacheLookup [(cacheKey "q", "res")] (cacheKey "q") = some "res" ∧
    searchProperties (fun _ _ => .ok "x") [(cacheKey "q", "res")] [] 0 "q" 3 =
      ⟨.ok "res", [(cacheKey "q", "res")], [], 0, 0, 0, 0⟩ :=
  ⟨by simp [cacheLookup], cache_hit_idempotent.1 (fun _ _ => .ok "x")
    [(cacheKey "q", "res")] [] 0 "q" 3 "res" (by simp [cacheLookup])⟩

/-- Agent for the C3 counterexample: always rate-limited. -/
def c3Agent : String → ℕ → AgentResult := fun _ _ => .err "429"

/-- First `search_properties("q", max_retries = 1)` call from a fresh state:
it exhausts its single attempt and returns the sentinel without caching. -/
def c3First : SearchOut := searchProperties c3Agent [] [] 0 "q" 1

/-- The immediately repeated identical call in the same session. -/
def c3Second : SearchOut :=
  searchProperties c3Agent c3First.cache c3First.requestTimes c3First.clock "q" 1

/-- C3 counterexample: two successive `search_properties` calls on the same
query can issue two external agent calls — the repeat re-invokes the agent
because the failed first call cached nothing. -/
theorem second_call_reinvokes :
    c3First.agentCalls = 1 ∧ c3Second.agentCalls = 1 ∧
    ¬ (c3First.agentCalls + c3Second.agentCalls ≤ 1) := by
  refine ⟨rfl, rfl, by decide⟩

/-! ### C8 and C9: frame conditions of `search_properties` -/

/-- C8: a `search_properties` call that does not succeed — raising an
exception or returning the sentinel — leaves the cache unchanged; an entry
is stored exactly on a successful attempt, and the stored value is the
returned result. -/
theorem searchProperties_cache_only_on_success (agent : String → ℕ → AgentResult)
    (cache : List (String × String)) (times : List ℚ) (clock : ℚ)
    (q : String) (mr : ℕ)
    (hmiss : cacheLookup cache (cacheKey q) = none) :
    (∀ m, (runAttempts (fun i => agent (promptOf q) i) 0 mr).res = .raised m →
      (searchProperties agent cache times clock q mr).cache = cache ∧
      (searchProperties agent cache times clock q mr).result = .error m) ∧
    ((runAttempts (fun i => agent (promptOf q) i) 0 mr).res = .exhausted →
      (searchProperties agent cache times clock q mr).cache = cache ∧
      (searchProperties agent cache times clock q mr).result = .ok sentinelMessage) ∧
    (∀ out, (runAttempts (fun i => agent (promptOf q) i) 0 mr).res = .success out →
      (searchProperties agent cache times clock q mr).result = .ok out ∧
      (searchProperties agent cache times clock q mr).cache = cacheInsert cache (cacheKey q) out ∧
      cacheLookup (searchProperties agent cache times clock q mr).cache (cacheKey q) = some out) := by
  refine ⟨fun m hres => ?_, fun hres => ?_, fun out hres => ?_⟩
  · rw [searchProperties_miss_raised agent cache times clock q mr m hmiss hres]
    exact ⟨rfl, rfl⟩
  · rw [searchProperties_miss_exhausted agent cache times clock q mr hmiss hres]
    exact ⟨rfl, rfl⟩
  · rw [searchProperties_miss_success agent cache times clock q mr out hmiss hres]
    exact ⟨rfl, rfl, cacheLookup_insert cache (cacheKey q) out⟩

/-- C8 witness: instantiated at a fresh state. -/
theorem searchProperties_cache_only_on_success_witness :
    cacheLookup [] (cacheKey "w") = none ∧
    ((∀ m, (runAttempts (fun i => (fun _ _ => AgentResult.err "429") (promptOf "w") i) 0 1).res = .raised m →
      (searchProperties (fun _ _ => .err "429") [] [] 0 "w" 1).cache = [] ∧
      (searchProperties (fun _ _ => .err "429") [] [] 0 "w" 1).result = .error m) ∧
    ((runAttempts (fun i => (fun _ _ => AgentResult.err "429") (promptOf "w") i) 0 1).res = .exhausted →
      (searchProperties (fun _ _ => .err "429") [] [] 0 "w" 1).cache = [] ∧
      (searchProperties (fun _ _ => .err "429") [] [] 0 "w" 1).result = .ok sentinelMessage) ∧
    (∀ out, (runAttempts (fun i => (fun _ _ => AgentResult.err "429") (promptOf "w") i) 0 1).res = .success out →
      (searchProperties (fun _ _ => .err "429") [] [] 0 "w" 1).result = .ok out ∧
      (searchProperties (fun _ _ => .err "429") [] [] 0 "w" 1).cache = cacheInsert [] (cacheKey "w") out ∧
      cacheLookup (searchProperties (fun _ _ => .err "429") [] [] 0 "w" 1).cache (cacheKey "w") = some out)) :=
  ⟨rfl, searchProperties_cache_only_on_success (fun _ _ => .err "429") [] [] 0 "w" 1 rfl⟩

/-- The updated log of one `_rate_limit` call is the pruned log with exactly
one appended timestamp. -/
theorem rateLimit_log_eq (k : ℕ) (now : ℚ) (times : List ℚ) :
    (rateLimit k now times).1 = pruneLog now times ++ [now + (rateLimit k now times).2] := rfl

/-- C9: a cache-miss `search_properties` call performs exactly one
`_rate_limit()` acquisition before its first attempt — the new timestamp log
is the pruned log plus exactly one appended entry, and it does not depend on
the agent's behavior or on `max_retries` — and no field other than the cache
(updated only on success) and the timestamp log is modified. -/
theorem searchProperties_single_throttle_acquisition (agent agent2 : String → ℕ → AgentResult)
    (cache : List (String × String)) (times : List ℚ) (clock : ℚ)
    (q : String) (mr mr2 : ℕ)
    (hmiss : cacheLookup cache (cacheKey q) = none) :
    (searchProperties agent cache times clock q mr).requestTimes = (rateLimit 10 clock times).1 ∧
    (searchProperties agent cache times clock q mr).requestTimes =
      pruneLog clock times ++ [clock + (rateLimit 10 clock times).2] ∧
    (searchProperties agent2 cache times clock q mr2).requestTimes =
      (searchProperties agent cache times clock q mr).requestTimes ∧
    ((searchProperties agent cache times clock q mr).cache = cache ∨
      ∃ out, (runAttempts (fun i => agent (promptOf q) i) 0 mr).res = .success out ∧
        (searchProperties agent cache times clock q mr).cache = cacheInsert cache (cacheKey q) out) := by
  have keyTimes : ∀ (ag : String → ℕ → AgentResult) (n : ℕ),
      (searchProperties ag cache times clock q n).requestTimes = (rateLimit 10 clock times).1 := by
    intro ag n
    cases hres : (runAttempts (fun i => ag (promptOf q) i) 0 n).res with
    | success out => rw [searchProperties_miss_success ag cache times clock q n out hmiss hres]
    | raised m => rw [searchProperties_miss_raised ag cache times clock q n m hmiss hres]
    | exhausted => rw [searchProperties_miss_exhausted ag cache times clock q n hmiss hres]
  refine ⟨keyTimes agent mr, ?_, ?_, ?_⟩
  · rw [keyTimes agent mr]; exact rateLimit_log_eq 10 clock times
  · rw [keyTimes agent mr, keyTimes agent2 mr2]
  · cases hres : (runAttempts (fun i => agent (promptOf q) i) 0 mr).res with
    | success out =>
      right
      rw [searchProperties_miss_success agent cache times clock q mr out hmiss hres]
      exact ⟨out, rfl, rfl⟩
    | raised m =>
      left
      rw [searchProperties_miss_raised agent cache times clock q mr m hmiss hres]
    | exhausted =>
      left
      rw [searchProperties_miss_exhausted agent cache times clock q mr hmiss hres]

/-- C9 witness: instantiated at a fresh state with two different agents and
retry budgets. -/
theorem searchProperties_single_throttle_acquisition_witness :
    cacheLookup [] (cacheKey "v") = none ∧
    ((searchProperties (fun _ _ => .ok "a") [] [] 0 "v" 3).requestTimes = (rateLimit 10 0 []).1 ∧
    (searchProperties (fun _ _ => .ok "a") [] [] 0 "v" 3).requestTimes =
      pruneLog 0 [] ++ [0 + (rateLimit 10 0 []).2] ∧
    (searchProperties (fun _ _ => .err "429") [] [] 0 "v" 5).requestTimes =
      (searchProperties (fun _ _ => .ok "a") [] [] 0 "v" 3).requestTimes ∧
    ((searchProperties (fun _ _ => .ok "a") [] [] 0 "v" 3).cache = [] ∨
      ∃ out, (runAttempts (fun i => (fun _ _ => AgentResult.ok "a") (promptOf "v") i) 0 3).res = .success out ∧
        (searchProperties (fun _ _ => .ok "a") [] [] 0 "v" 3).cache = cacheInsert [] (cacheKey "v") out)) :=
  ⟨rfl, searchProperties_single_throttle_acquisition (fun _ _ => .ok "a")
    (fun _ _ => .err "429") [] [] 0 "v" 3 5 rfl⟩

/-! ### Basic lemmas on `_rate_limit` -/

/-- The slept duration of a `_rate_limit` call is never negative. -/
theorem rateLimit_slept_nonneg (k : ℕ) (now : ℚ) (times : List ℚ) :
    0 ≤ (rateLimit k now times).2 := by
  simp only [rateLimit]
  split_ifs with h1 h2
  · exact le_of_lt h2
  · exact le_refl 0
  · exact le_refl 0

/-- Every entry of a pruned log is within the trailing 60-second window. -/
theorem pruneLog_mem (now : ℚ) (times : List ℚ) (t : ℚ) (h : t ∈ pruneLog now times) :
    t ∈ times ∧ now - t < 60 := by
  have := List.mem_filter.mp h
  exact ⟨this.1, by simpa using this.2⟩

/-- Sortedness is preserved by one `_rate_limit` call, and all entries of
the new log are bounded by the post-call clock. -/
theorem rateLimit_sorted (k : ℕ) (now : ℚ) (times : List ℚ)
    (hsort : List.Pairwise (· ≤ ·) times) (hle : ∀ t ∈ times, t ≤ now) :
    List.Pairwise (· ≤ ·) (rateLimit k now times).1 ∧
    ∀ t ∈ (rateLimit k now times).1, t ≤ now + (rateLimit k now times).2 := by
  have hslept := rateLimit_slept_nonneg k now times
  rw [rateLimit_log_eq]
  constructor
  · rw [List.pairwise_append]
    refine ⟨hsort.filter _, List.pairwise_singleton _ _, ?_⟩
    intro x hx y hy
    rw [List.mem_singleton] at hy
    subst hy
    have hx' := (pruneLog_mem now times x hx).1
    calc x ≤ now := hle x hx'
    _ ≤ now + (rateLimit k now times).2 := by linarith
  · intro t ht
    rcases List.mem_append.mp ht with h | h
    · have := hle t (pruneLog_mem now times t h).1
      linarith
    · rw [List.mem_singleton] at h
      subst h
      exact le_refl _

/-! ### C5: the `_rate_limit` contract (corrected: appends the post-sleep time) -/

/-- C5 counterexample: with `max_per_minute` = 1, timestamp log `[0]` and
`now` = 30, `_rate_limit` waits 30 seconds and appends 60 — the post-sleep
`time.time()` — not the pre-sleep `now` = 30 that the claim names. -/
theorem rateLimit_appends_postsleep :
    rateLimit 1 30 [0] = ([0, 60], 30) ∧
    (rateLimit 1 30 [0]).1 ≠ pruneLog 30 [0] ++ [30] := by
  have h1 : rateLimit 1 30 [0] = ([0, 60], 30) := by
    simp [rateLimit, pruneLog]
    norm_num
  have h2 : pruneLog 30 [0] = [0] := by
    simp [pruneLog]
    norm_num
  refine ⟨h1, ?_⟩
  rw [h1, h2]
  intro h
  simp only [List.cons_append, List.nil_append, List.cons.injEq] at h
  norm_num at h

/-- When the pruned log is below the budget, `_rate_limit` does not sleep. -/
theorem rateLimit_slept_small (k : ℕ) (now : ℚ) (times : List ℚ)
    (hlt : (pruneLog now times).length < k) : (rateLimit k now times).2 = 0 := by
  simp only [rateLimit]
  rw [if_neg (by omega)]

/-- When the pruned log has reached the budget, the wait computed from its
oldest entry is strictly positive and is exactly the slept duration. -/
theorem rateLimit_slept_full (k : ℕ) (now : ℚ) (times : List ℚ) (h0 : ℚ)
    (hh0 : (pruneLog now times).head? = some h0)
    (hlen : k ≤ (pruneLog now times).length) :
    0 < 60 - (now - h0) ∧ (rateLimit k now times).2 = 60 - (now - h0) := by
  have hmem : h0 ∈ pruneLog now times := List.mem_of_mem_head? hh0
  have hwin := (pruneLog_mem now times h0 hmem).2
  have hpos : 0 < 60 - (now - h0) := by linarith
  refine ⟨hpos, ?_⟩
  have hD : (pruneLog now times).headD 0 = h0 := by
    rw [List.headD_eq_head?_getD, hh0]
    rfl
  simp only [rateLimit]
  rw [if_pos hlen, hD, if_pos hpos]

/-- C5 (amended): every `_rate_limit(max_per_minute)` call prunes the
timestamp log to the entries within the last 60 seconds; if the pruned log
already holds `max_per_minute` entries it suspends the caller for
`wait = 60 − (now − oldest)` seconds (a no-op if `wait ≤ 0` — which in fact
cannot happen, the wait is positive); and it finally appends the post-sleep
current time `now + slept` (not the pre-sleep `now`) to the log. -/
theorem rateLimit_contract (k : ℕ) (now : ℚ) (times : List ℚ) (_hk : 1 ≤ k) :
    (rateLimit k now times).1 = pruneLog now times ++ [now + (rateLimit k now times).2] ∧
    (∀ t ∈ pruneLog now times, t ∈ times ∧ now - t < 60) ∧
    ((pruneLog now times).length < k → (rateLimit k now times).2 = 0) ∧
    (∀ h0, (pruneLog now times).head? = some h0 → k ≤ (pruneLog now times).length →
      0 < 60 - (now - h0) ∧ (rateLimit k now times).2 = 60 - (now - h0)) :=
  ⟨rateLimit_log_eq k now times, fun t ht => pruneLog_mem now times t ht,
    rateLimit_slept_small k now times,
    fun h0 hh0 hlen => rateLimit_slept_full k now times h0 hh0 hlen⟩

/-- C5 witness: the amended contract at `k` = 1, `now` = 30, log `[0]`. -/
theorem rateLimit_contract_witness :
    1 ≤ 1 ∧
    ((rateLimit 1 30 [0]).1 = pruneLog 30 [0] ++ [30 + (rateLimit 1 30 [0]).2] ∧
    (∀ t ∈ pruneLog 30 [0], t ∈ [(0 : ℚ)] ∧ 30 - t < 60) ∧
    ((pruneLog 30 [0]).length < 1 → (rateLimit 1 30 [0]).2 = 0) ∧
    (∀ h0, (pruneLog 30 [0]).head? = some h0 → 1 ≤ (pruneLog 30 [0]).length →
      0 < 60 - (30 - h0) ∧ (rateLimit 1 30 [0]).2 = 60 - (30 - h0))) :=
  ⟨by decide, rateLimit_contract 1 30 [0] (by decide)⟩

/-! ### C10: the timestamp log is always sorted -/

/-- Auxiliary invariant for sequential throttle sessions: sortedness of the
log plus the bound of its entries by the running clock. -/
theorem throttleTrace_sorted_aux (k : ℕ) (ds : List ℚ) :
    ∀ st : ℚ × List ℚ × List ℚ, (∀ d ∈ ds, 0 ≤ d) →
    List.Pairwise (· ≤ ·) st.2.1 → (∀ t ∈ st.2.1, t ≤ st.1) →
    List.Pairwise (· ≤ ·) (ds.foldl (throttleStep k) st).2.1 ∧
    (∀ t ∈ (ds.foldl (throttleStep k) st).2.1, t ≤ (ds.foldl (throttleStep k) st).1) := by
  induction ds with
  | nil => exact fun st _ h1 h2 => ⟨h1, h2⟩
  | cons d ds ih =>
    intro st hds h1 h2
    have hd : 0 ≤ d := hds d (List.mem_cons_self d ds)
    have hle : ∀ t ∈ st.2.1, t ≤ st.1 + d := fun t ht => by
      have := h2 t ht
      linarith
    have hstep := rateLimit_sorted k (st.1 + d) st.2.1 h1 hle
    exact ih (throttleStep k st d) (fun e he => hds e (List.mem_cons_of_mem d he))
      hstep.1 hstep.2

/-- C10: the request-timestamp log is always sorted in nondecreasing order:
it starts empty at construction, every single `_rate_limit` call preserves
sortedness (pruning keeps an ordered sublist and the appended timestamp is
at least every retained entry), and hence the log of every sequential
session is sorted. -/
theorem requestTimes_sorted_invariant :
    List.Pairwise (· ≤ ·) ([] : List ℚ) ∧
    (∀ (k : ℕ) (now : ℚ) (times : List ℚ), List.Pairwise (· ≤ ·) times →
      (∀ t ∈ times, t ≤ now) → List.Pairwise (· ≤ ·) (rateLimit k now times).1) ∧
    (∀ (k : ℕ) (t0 : ℚ) (ds : List ℚ), (∀ d ∈ ds, 0 ≤ d) →
      List.Pairwise (· ≤ ·) (throttleTrace k t0 ds).2.1) := by
  refine ⟨List.Pairwise.nil, fun k now times h1 h2 => (rateLimit_sorted k now times h1 h2).1,
    fun k t0 ds hds => ?_⟩
  exact (throttleTrace_sorted_aux k ds (t0, [], []) hds List.Pairwise.nil (by simp)).1

/-- C10 witness: a concrete session. -/
theorem requestTimes_sorted_invariant_witness :
    (∀ d ∈ [(0 : ℚ), 0], 0 ≤ d) ∧
    List.Pairwise (· ≤ ·) (throttleTrace 1 0 [0, 0]).2.1 :=
  ⟨by decide, requestTimes_sorted_invariant.2.2 1 0 [0, 0] (by decide)⟩

/-! ### C2: the rolling 60-second window guarantee -/

/-- Membership of a timestamp in the trailing 60-second window ending at `c`. -/
def inWin (c t : ℚ) : Bool := decide (c - 60 < t ∧ t ≤ c)

/-- Invariant of a sequential throttle session: `clock` is the current time,
`log` the timestamp log, `hist` the full history of appended timestamps.
The history splits into stale removed entries (older than 60 seconds) and
the log; it is sorted and bounded by the clock; the log exceeds the budget
`k` by at most the one entry appended after the last prune, and when it does,
its oldest entry is already stale; and no trailing 60-second window contains
more than `k` appended timestamps. -/
structure ThrInv (k : ℕ) (clock : ℚ) (log hist : List ℚ) : Prop where
  split : ∃ removed, hist = removed ++ log ∧ ∀ t ∈ removed, t ≤ clock - 60
  sorted : List.Pairwise (· ≤ ·) hist
  le_clock : ∀ t ∈ hist, t ≤ clock
  len_le : log.length ≤ k + 1
  head_old : ∀ h0, log.head? = some h0 → k + 1 ≤ log.length → h0 + 60 ≤ clock
  window : ∀ c : ℚ, hist.countP (inWin c) ≤ k

/-- On a sorted log, pruning removes exactly a stale prefix. -/
theorem pruneLog_split (now : ℚ) (l : List ℚ) (hs : List.Pairwise (· ≤ ·) l) :
    ∃ l₁, l = l₁ ++ pruneLog now l ∧ ∀ t ∈ l₁, t ≤ now - 60 := by
  induction l with
  | nil => exact ⟨[], rfl, by simp⟩
  | cons h t ih =>
    rw [List.pairwise_cons] at hs
    by_cases hp : now - h < 60
    · refine ⟨[], ?_, by simp⟩
      rw [List.nil_append]
      have hall : pruneLog now (h :: t) = h :: t := by
        rw [pruneLog, List.filter_eq_self]
        intro a ha
        rcases List.mem_cons.mp ha with rfl | ha'
        · simpa using hp
        · have := hs.1 a ha'
          simp only [decide_eq_true_eq]
          linarith
      rw [hall]
    · obtain ⟨l₁, heq, hb⟩ := ih hs.2
      have hstep : pruneLog now (h :: t) = pruneLog now t := by
        rw [pruneLog, pruneLog, List.filter_cons_of_neg]
        simpa using hp
      refine ⟨h :: l₁, ?_, ?_⟩
      · rw [hstep, List.cons_append]
        exact congrArg (h :: ·) heq
      · intro x hx
        rcases List.mem_cons.mp hx with rfl | hx'
        · linarith [not_lt.mp hp]
        · exact hb x hx'

/-- At any later check time, the pruned log of an invariant state has at
most `k` entries: "no more than `max_per_minute` timestamps in the log at
any rolling 60-second check". -/
theorem ThrInv_prune_le (k : ℕ) (clock d : ℚ) (log hist : List ℚ)
    (inv : ThrInv k clock log hist) (hd : 0 ≤ d) :
    (pruneLog (clock + d) log).length ≤ k := by
  rcases Nat.lt_or_ge log.length (k + 1) with hlen | hlen
  · calc (pruneLog (clock + d) log).length ≤ log.length := List.length_filter_le _ _
    _ ≤ k := by omega
  · obtain ⟨h0, t, hlog⟩ : ∃ h0 t, log = h0 :: t := by
      cases log with
      | nil => exact absurd hlen (by intro h; rw [List.length_nil] at h; omega)
      | cons x xs => exact ⟨x, xs, rfl⟩
    have hh0 : h0 + 60 ≤ clock := inv.head_old h0 (by rw [hlog]; rfl) (by omega)
    have hlen_t : t.length ≤ k := by
      have h1 := inv.len_le
      rw [hlog] at h1
      simp only [List.length_cons] at h1
      omega
    have hdrop : pruneLog (clock + d) (h0 :: t) = pruneLog (clock + d) t := by
      rw [pruneLog, pruneLog, List.filter_cons_of_neg]
      simp only [decide_eq_true_eq, not_lt]
      linarith
    rw [hlog, hdrop]
    calc (pruneLog (clock + d) t).length ≤ t.length := List.length_filter_le _ _
    _ ≤ k := hlen_t

/-- One sequential `_rate_limit` call (after a nonnegative idle delay)
preserves the throttle invariant. -/
theorem ThrInv_step (k : ℕ) (clock d : ℚ) (log hist : List ℚ)
    (hk : 1 ≤ k) (hd : 0 ≤ d) (inv : ThrInv k clock log hist) :
    ThrInv k (clock + d + (rateLimit k (clock + d) log).2)
      (rateLimit k (clock + d) log).1
      (hist ++ [clock + d + (rateLimit k (clock + d) log).2]) := by
  have hP_le_k : (pruneLog (clock + d) log).length ≤ k :=
    ThrInv_prune_le k clock d log hist inv hd
  obtain ⟨removed, hsplit, hrem⟩ := inv.split
  set now := clock + d with hnow
  set s := (rateLimit k now log).2 with hs
  have hs0 : 0 ≤ s := rateLimit_slept_nonneg k now log
  have hclock_now : clock ≤ now := by rw [hnow]; linarith
  have hlog_sorted : List.Pairwise (· ≤ ·) log := by
    have h1 := inv.sorted
    rw [hsplit] at h1
    exact (List.pairwise_append.mp h1).2.1
  have hlog_le : ∀ t ∈ log, t ≤ clock := fun t ht =>
    inv.le_clock t (by rw [hsplit]; exact List.mem_append_right removed ht)
  obtain ⟨l₁, hsplit2, hl₁⟩ := pruneLog_split now log hlog_sorted
  have hlog' : (rateLimit k now log).1 = pruneLog now log ++ [now + s] :=
    rateLimit_log_eq k now log
  refine ⟨?_, ?_, ?_, ?_, ?_, ?_⟩
  · -- split
    refine ⟨removed ++ l₁, ?_, ?_⟩
    · rw [hlog']
      calc hist ++ [now + s]
          = (removed ++ (l₁ ++ pruneLog now log)) ++ [now + s] := by
            rw [← hsplit2, ← hsplit]
      _ = (removed ++ l₁) ++ (pruneLog now log ++ [now + s]) := by
            simp [List.append_assoc]
    · intro t ht
      rcases List.mem_append.mp ht with h | h
      · have := hrem t h
        linarith
      · have := hl₁ t h
        linarith
  · -- sorted
    rw [List.pairwise_append]
    refine ⟨inv.sorted, List.pairwise_singleton _ _, ?_⟩
    intro x hx y hy
    rw [List.mem_singleton] at hy
    subst hy
    have := inv.le_clock x hx
    linarith
  · -- le_clock
    intro t ht
    rcases List.mem_append.mp ht with h | h
    · have := inv.le_clock t h
      linarith
    · rw [List.mem_singleton] at h
      subst h
      exact le_refl _
  · -- len_le
    rw [hlog']
    simp only [List.length_append, List.length_singleton]
    omega
  · -- head_old
    intro h0 hh0 hlen'
    rw [hlog'] at hh0 hlen'
    simp only [List.length_append, List.length_singleton] at hlen'
    have hPk : k ≤ (pruneLog now log).length := by omega
    cases hP : pruneLog now log with
    | nil =>
      rw [hP] at hPk
      simp at hPk
      omega
    | cons hOld Pt =>
      have hfull := rateLimit_slept_full k now log hOld (by rw [hP]; rfl) hPk
      rw [hP] at hh0
      simp only [List.cons_append, List.head?_cons, Option.some.injEq] at hh0
      subst hh0
      rw [← hs] at hfull
      linarith [hfull.2]
  · -- window
    intro c
    rw [List.countP_append]
    by_cases hin : inWin c (now + s) = true
    · have hc : c - 60 < now + s ∧ now + s ≤ c := by simpa [inWin] using hin
      have hsing : List.countP (inWin c) [now + s] = 1 := by
        simp [List.countP_cons, hin]
      have hrem0 : List.countP (inWin c) removed = 0 :=
        List.countP_eq_zero.mpr (fun t ht => by
          have h1 := hrem t ht
          simp only [inWin, decide_eq_true_eq, not_and]
          intro hl
          linarith)
      have hl₁0 : List.countP (inWin c) l₁ = 0 :=
        List.countP_eq_zero.mpr (fun t ht => by
          have h1 := hl₁ t ht
          simp only [inWin, decide_eq_true_eq, not_and]
          intro hl
          linarith)
      have hlog_count : List.countP (inWin c) log =
          List.countP (inWin c) (pruneLog now log) := by
        conv_lhs => rw [hsplit2]
        rw [List.countP_append, hl₁0]
        omega
      have hist_eq : List.countP (inWin c) hist =
          List.countP (inWin c) (pruneLog now log) := by
        rw [hsplit, List.countP_append, hrem0, hlog_count]
        omega
      rcases Nat.lt_or_ge (pruneLog now log).length k with hPlt | hPge
      · have hle := List.countP_le_length (inWin c) (l := pruneLog now log)
        omega
      · have hPk : (pruneLog now log).length = k := le_antisymm hP_le_k hPge
        cases hP : pruneLog now log with
        | nil =>
          rw [hP] at hPk
          simp at hPk
          omega
        | cons hOld Pt =>
          have hfull := rateLimit_slept_full k now log hOld (by rw [hP]; rfl) hPge
          rw [← hs] at hfull
          have ha_eq : now + s = hOld + 60 := by
            rw [hfull.2]
            ring
          have hOld_out : inWin c hOld = false := by
            simp only [inWin, decide_eq_false_iff_not, not_and]
            intro hl
            linarith
          have hcount : List.countP (inWin c) (hOld :: Pt) = List.countP (inWin c) Pt := by
            rw [List.countP_cons, hOld_out]
            simp
          have hPt_le := List.countP_le_length (inWin c) (l := Pt)
          have hPt_len : Pt.length = k - 1 := by
            rw [hP] at hPk
            simp only [List.length_cons] at hPk
            omega
          rw [hist_eq, hP, hcount]
          omega
    · have hsing : List.countP (inWin c) [now + s] = 0 := by
        simp only [List.countP_cons, List.countP_nil]
        rw [Bool.not_eq_true] at hin
        rw [hin]
        simp
      have := inv.window c
      omega

/-- The throttle invariant holds of the empty initial state of `__init__`. -/
theorem ThrInv_init (k : ℕ) (t0 : ℚ) : ThrInv k t0 [] [] :=
  ⟨⟨[], rfl, fun t ht => absurd ht (List.not_mem_nil t)⟩, List.Pairwise.nil,
    fun t ht => absurd ht (List.not_mem_nil t), by simp,
    fun h0 hh0 _ => by simp at hh0, fun c => by simp⟩

/-- The throttle invariant is preserved along any sequential session. -/
theorem ThrInv_trace (k : ℕ) (ds : List ℚ) :
    ∀ st : ℚ × List ℚ × List ℚ, 1 ≤ k → (∀ d ∈ ds, 0 ≤ d) →
    ThrInv k st.1 st.2.1 st.2.2 →
    ThrInv k (ds.foldl (throttleStep k) st).1 (ds.foldl (throttleStep k) st).2.1
      (ds.foldl (throttleStep k) st).2.2 := by
  induction ds with
  | nil => exact fun st _ _ inv => inv
  | cons d ds ih =>
    intro st hk hds inv
    have hstep := ThrInv_step k st.1 d st.2.1 st.2.2 hk (hds d (List.mem_cons_self d ds)) inv
    exact ih (throttleStep k st d) hk (fun e he => hds e (List.mem_cons_of_mem d he)) hstep

/-- The timestamp log after a cache-miss search is the one produced by its
single `_rate_limit` call, whatever the retry loop then does. -/
theorem searchProperties_requestTimes_eq (agent : String → ℕ → AgentResult)
    (cache : List (String × String)) (times : List ℚ) (clock : ℚ)
    (q : String) (mr : ℕ)
    (hmiss : cacheLookup cache (cacheKey q) = none) :
    (searchProperties agent cache times clock q mr).requestTimes = (rateLimit 10 clock times).1 := by
  cases hres : (runAttempts (fun i => agent (promptOf q) i) 0 mr).res with
  | success out => rw [searchProperties_miss_success agent cache times clock q mr out hmiss hres]
  | raised m => rw [searchProperties_miss_raised agent cache times clock q mr m hmiss hres]
  | exhausted => rw [searchProperties_miss_exhausted agent cache times clock q mr hmiss hres]

/-- The call-time trace has exactly one entry per agent invocation of the
retry loop. -/
theorem attemptTimes_length (invoke : ℕ → AgentResult) :
    ∀ (fuel attempt : ℕ) (t : ℚ),
    (attemptTimes invoke attempt fuel t).length = (runAttempts invoke attempt fuel).calls := by
  intro fuel
  induction fuel with
  | zero => intro attempt t; rfl
  | succ fuel ih =>
    intro attempt t
    simp only [attemptTimes, runAttempts]
    cases invoke attempt with
    | ok out => rfl
    | err m =>
      by_cases hrl : isRateLimitErr m
      · simp [hrl, ih]
      · simp [hrl]

/-- A loop with fuel makes its first agent invocation at its start time. -/
theorem attemptTimes_head (invoke : ℕ → AgentResult) (attempt fuel : ℕ) (t : ℚ)
    (h : 1 ≤ fuel) : (attemptTimes invoke attempt fuel t).head? = some t := by
  cases fuel with
  | zero => omega
  | succ fuel =>
    simp only [attemptTimes]
    cases invoke attempt with
    | ok out => rfl
    | err m =>
      by_cases hrl : isRateLimitErr m
      · simp [hrl]
      · simp [hrl]

/-- A cache-miss search makes one agent invocation per `agentCalls`. -/
theorem searchCallTimes_length (agent : String → ℕ → AgentResult)
    (cache : List (String × String)) (times : List ℚ) (clock : ℚ)
    (q : String) (mr : ℕ) :
    (searchCallTimes agent cache times clock q mr).length =
      (searchProperties agent cache times clock q mr).agentCalls := by
  cases hlook : cacheLookup cache (cacheKey q) with
  | some v =>
    rw [searchProperties_hit agent cache times clock q mr v hlook]
    simp only [searchCallTimes, hlook]
    rfl
  | none =>
    have hlen := attemptTimes_length (fun i => agent (promptOf q) i) mr 0
      (clock + (rateLimit 10 clock times).2)
    cases hres : (runAttempts (fun i => agent (promptOf q) i) 0 mr).res with
    | success out =>
      rw [searchProperties_miss_success agent cache times clock q mr out hlook hres]
      simp only [searchCallTimes, hlook]
      exact hlen
    | raised m =>
      rw [searchProperties_miss_raised agent cache times clock q mr m hlook hres]
      simp only [searchCallTimes, hlook]
      exact hlen
    | exhausted =>
      rw [searchProperties_miss_exhausted agent cache times clock q mr hlook hres]
      simp only [searchCallTimes, hlook]
      exact hlen

/-- C2 (amended): the rolling-window guarantee holds for the throttle
acquisitions, i.e. for the timestamps `_rate_limit` appends — one per
cache-miss search, guarding that search's first agent attempt — not for
agent invocations, since retries re-invoke the agent without a further
acquisition.  In every single-threaded sequential session (nonnegative idle
delays between calls, budget `k` = `max_per_minute` ≥ 1, as in the program
where it is 10): (1) no trailing 60-second window ever contains more than
`k` of the appended throttle timestamps; (2) at any rolling 60-second check
the pruned timestamp log holds at most `k` entries; (3) whenever a check
finds the budget exhausted, the wait it computes from the oldest entry is
≥ 0 (in fact positive); and (4) on every cache-miss search the timestamp
the throttle appends is exactly the time of that search's first agent
invocation. -/
theorem throttle_window_guarantee (k : ℕ) (t0 : ℚ) (ds : List ℚ)
    (hk : 1 ≤ k) (hds : ∀ d ∈ ds, 0 ≤ d) :
    (∀ c : ℚ, (throttleTrace k t0 ds).2.2.countP (inWin c) ≤ k) ∧
    (∀ d : ℚ, 0 ≤ d →
      (pruneLog ((throttleTrace k t0 ds).1 + d) (throttleTrace k t0 ds).2.1).length ≤ k) ∧
    (∀ (now : ℚ) (times : List ℚ) (h0 : ℚ), k ≤ (pruneLog now times).length →
      (pruneLog now times).head? = some h0 → 0 ≤ 60 - (now - h0)) ∧
    (∀ (agent : String → ℕ → AgentResult) cache times clock q mr,
      cacheLookup cache (cacheKey q) = none → 1 ≤ mr →
      (searchCallTimes agent cache times clock q mr).head? =
        some (clock + (rateLimit 10 clock times).2) ∧
      (searchProperties agent cache times clock q mr).requestTimes.getLast? =
        some (clock + (rateLimit 10 clock times).2)) := by
  have inv := ThrInv_trace k ds (t0, [], []) hk hds (ThrInv_init k t0)
  refine ⟨inv.window, fun d hd => ?_, fun now times h0 hlen hh0 => ?_,
    fun agent cache times clock q mr hmiss hmr => ⟨?_, ?_⟩⟩
  · exact ThrInv_prune_le k (throttleTrace k t0 ds).1 d (throttleTrace k t0 ds).2.1
      (throttleTrace k t0 ds).2.2 inv hd
  · have hmem : h0 ∈ pruneLog now times := List.mem_of_mem_head? hh0
    have hwin := (pruneLog_mem now times h0 hmem).2
    linarith
  · simp only [searchCallTimes, hmiss]
    exact attemptTimes_head _ 0 mr _ hmr
  · rw [searchProperties_requestTimes_eq agent cache times clock q mr hmiss,
      rateLimit_log_eq]
    exact List.getLast?_concat _

/-- C2 witness: the amended guarantee at a session of two back-to-back
calls under budget 1. -/
theorem throttle_window_guarantee_witness :
    (1 ≤ 1 ∧ ∀ d ∈ [(0 : ℚ), 0], 0 ≤ d) ∧
    ((∀ c : ℚ, (throttleTrace 1 0 [0, 0]).2.2.countP (inWin c) ≤ 1) ∧
    (∀ d : ℚ, 0 ≤ d →
      (pruneLog ((throttleTrace 1 0 [0, 0]).1 + d) (throttleTrace 1 0 [0, 0]).2.1).length ≤ 1) ∧
    (∀ (now : ℚ) (times : List ℚ) (h0 : ℚ), 1 ≤ (pruneLog now times).length →
      (pruneLog now times).head? = some h0 → 0 ≤ 60 - (now - h0)) ∧
    (∀ (agent : String → ℕ → AgentResult) cache times clock q mr,
      cacheLookup cache (cacheKey q) = none → 1 ≤ mr →
      (searchCallTimes agent cache times clock q mr).head? =
        some (clock + (rateLimit 10 clock times).2) ∧
      (searchProperties agent cache times clock q mr).requestTimes.getLast? =
        some (clock + (rateLimit 10 clock times).2))) :=
  ⟨⟨by decide, by decide⟩, throttle_window_guarantee 1 0 [0, 0] (by decide) (by decide)⟩

/-- Agent of the C2 counterexample's first search: a rate-limited failure,
then a non-rate-limit failure on the retry. -/
def c2AgentRetry : String → ℕ → AgentResult :=
  fun _ i => if i = 0 then .err "429" else .err "boom"

/-- Agent of the other nine searches: an immediate non-rate-limit failure. -/
def c2AgentBoom : String → ℕ → AgentResult := fun _ _ => .err "boom"

/-- The counterexample session: one search whose retry bypasses the
throttle, then nine failing searches — same query throughout, and since
every search fails, nothing is ever cached. -/
def c2Searches : List SessionSearch :=
  ⟨"q", c2AgentRetry, 2⟩ :: List.replicate 9 ⟨"q", c2AgentBoom, 1⟩

/-- C2 counterexample: with the source's `max_per_minute = 10`, a session of
one search whose rate-limited first attempt (at `t = 0`) retries at
`t = 40` — re-invoking the agent without a throttle acquisition — followed
by nine immediately failing searches at `t = 40` issues eleven agent calls
`[0, 40, …, 40]`, all inside the trailing 60-second window ending at
`t = 40`: more calls to the external agent than `max_per_minute`, so the
claim as stated is false. -/
theorem agent_calls_exceed_window_budget :
    (sessionRun c2Searches).callTimes = [0, 40, 40, 40, 40, 40, 40, 40, 40, 40, 40] ∧
    (sessionRun c2Searches).callTimes.countP (inWin 40) = 11 ∧
    ¬ ((sessionRun c2Searches).callTimes.countP (inWin 40) ≤ 10) := by
  have h429 : isRateLimitErr "429" = true := by decide
  have hboom : isRateLimitErr "boom" = false := by decide
  have hlist : (sessionRun c2Searches).callTimes =
      [0, 40, 40, 40, 40, 40, 40, 40, 40, 40, 40] := by
    norm_num [sessionRun, c2Searches, sessionStep, searchProperties, searchCallTimes,
      attemptTimes, runAttempts, rateLimit, pruneLog, cacheLookup, c2AgentRetry,
      c2AgentBoom, h429, hboom, backoffWait, List.replicate]
  have hcount : (sessionRun c2Searches).callTimes.countP (inWin 40) = 11 := by
    rw [hlist]
    simp only [List.countP_cons, List.countP_nil, inWin]
    norm_num
  exact ⟨hlist, hcount, by omega⟩

/-! ### C7: the MD5 cache key is deterministic but cannot be injective -/

/-- Little-endian numeric value of a byte list. -/
def bytesValLE : List ℕ → ℕ
  | [] => 0
  | b :: t => b + 256 * bytesValLE t

/-- The value of `n` bytes is below `256 ^ n`. -/
theorem bytesValLE_lt (l : List ℕ) (h : ∀ b ∈ l, b < 256) :
    bytesValLE l < 256 ^ l.length := by
  induction l with
  | nil => simp [bytesValLE]
  | cons b t ih =>
    have hb := h b (List.mem_cons_self b t)
    have ht := ih (fun x hx => h x (List.mem_cons_of_mem b hx))
    simp only [bytesValLE, List.length_cons, pow_succ]
    calc b + 256 * bytesValLE t < 256 + 256 * bytesValLE t := by omega
    _ ≤ 256 * (bytesValLE t + 1) := by ring_nf; omega
    _ ≤ 256 * 256 ^ t.length := by
        have : bytesValLE t + 1 ≤ 256 ^ t.length := ht
        exact Nat.mul_le_mul_left 256 this
    _ = 256 ^ t.length * 256 := by ring

/-- Byte lists of equal length with bytes `< 256` and equal little-endian
value are equal. -/
theorem bytesValLE_inj (l₁ : List ℕ) : ∀ l₂ : List ℕ, l₁.length = l₂.length →
    (∀ b ∈ l₁, b < 256) → (∀ b ∈ l₂, b < 256) →
    bytesValLE l₁ = bytesValLE l₂ → l₁ = l₂ := by
  induction l₁ with
  | nil =>
    intro l₂ hlen _ _ _
    cases l₂ with
    | nil => rfl
    | cons b t => simp at hlen
  | cons b₁ t₁ ih =>
    intro l₂ hlen h₁ h₂ hval
    cases l₂ with
    | nil => simp at hlen
    | cons b₂ t₂ =>
      have hb₁ := h₁ b₁ (List.mem_cons_self b₁ t₁)
      have hb₂ := h₂ b₂ (List.mem_cons_self b₂ t₂)
      simp only [bytesValLE] at hval
      have hb : b₁ = b₂ ∧ bytesValLE t₁ = bytesValLE t₂ := by omega
      have htl : t₁ = t₂ := ih t₂ (by simpa using hlen)
        (fun x hx => h₁ x (List.mem_cons_of_mem b₁ hx))
        (fun x hx => h₂ x (List.mem_cons_of_mem b₂ hx)) hb.2
      rw [hb.1, htl]

/-- An MD5 digest always has sixteen bytes. -/
theorem md5Digest_len (msg : List ℕ) : (md5Digest msg).length = 16 := by
  simp [md5Digest, wordBytesLE]

/-- Every byte of a 4-byte word serialization is below 256. -/
theorem wordBytesLE_lt (x : ℕ) : ∀ b ∈ wordBytesLE x, b < 256 := by
  intro b hb
  simp only [wordBytesLE, List.mem_cons, List.not_mem_nil, or_false] at hb
  rcases hb with h | h | h | h <;> subst h <;> exact Nat.mod_lt _ (by norm_num)

/-- Every byte of an MD5 digest is below 256. -/
theorem md5Digest_lt (msg : List ℕ) : ∀ b ∈ md5Digest msg, b < 256 := by
  intro b hb
  simp only [md5Digest] at hb
  rcases List.mem_append.mp hb with hb1 | h4
  · rcases List.mem_append.mp hb1 with hb2 | h3
    · rcases List.mem_append.mp hb2 with h1 | h2
      · exact wordBytesLE_lt _ b h1
      · exact wordBytesLE_lt _ b h2
    · exact wordBytesLE_lt _ b h3
  · exact wordBytesLE_lt _ b h4

/-- Binary encoding of a number below `2 ^ n` as an `n`-character string over
the two-letter alphabet `a`, `b` — a family of already-normalized queries. -/
def encBits : ℕ → ℕ → List Char
  | 0, _ => []
  | n + 1, v => (if v % 2 = 1 then 'b' else 'a') :: encBits n (v / 2)

/-- One query of the family. -/
def encQuery (n v : ℕ) : String := ⟨encBits n v⟩

/-- The encoding only uses the characters `a` and `b`. -/
theorem encBits_mem (n : ℕ) : ∀ v c, c ∈ encBits n v → c = 'a' ∨ c = 'b' := by
  induction n with
  | zero => intro v c hc; simp [encBits] at hc
  | succ n ih =>
    intro v c hc
    simp only [encBits, List.mem_cons] at hc
    rcases hc with h | h
    · subst h
      split
      · exact Or.inr rfl
      · exact Or.inl rfl
    · exact ih (v / 2) c h

/-- The encoding is injective below `2 ^ n`. -/
theorem encBits_inj (n : ℕ) : ∀ v w, v < 2 ^ n → w < 2 ^ n →
    encBits n v = encBits n w → v = w := by
  induction n with
  | zero =>
    intro v w hv hw _
    simp only [pow_zero, Nat.lt_one_iff] at hv hw
    rw [hv, hw]
  | succ n ih =>
    intro v w hv hw heq
    simp only [encBits, List.cons.injEq] at heq
    rw [pow_succ] at hv hw
    have htl : v / 2 = w / 2 :=
      ih (v / 2) (w / 2) (by omega) (by omega) heq.2
    have hhd : v % 2 = w % 2 := by
      rcases Nat.mod_two_eq_zero_or_one v with h1 | h1 <;>
        rcases Nat.mod_two_eq_zero_or_one w with h2 | h2
      · rw [h1, h2]
      · exfalso
        rw [h1, h2] at heq
        have h3 := heq.1
        rw [if_neg (by norm_num), if_pos rfl] at h3
        exact absurd h3 (by decide)
      · exfalso
        rw [h1, h2] at heq
        have h3 := heq.1
        rw [if_pos rfl, if_neg (by norm_num)] at h3
        exact absurd h3 (by decide)
      · rw [h1, h2]
    omega

/-- Dropping a false-prefix is the identity when no element satisfies the
predicate. -/
theorem dropWhile_eq_self_of_none (p : Char → Bool) (l : List Char)
    (h : ∀ c ∈ l, p c = false) : l.dropWhile p = l := by
  cases l with
  | nil => rfl
  | cons c t =>
    rw [List.dropWhile_cons, h c (List.mem_cons_self c t)]
    simp

/-- Mapping a function that fixes every element is the identity. -/
theorem map_eq_self_of_fixes (f : Char → Char) (l : List Char)
    (h : ∀ c ∈ l, f c = c) : l.map f = l := by
  induction l with
  | nil => rfl
  | cons c t ih =>
    rw [List.map_cons, h c (List.mem_cons_self c t),
      ih (fun x hx => h x (List.mem_cons_of_mem c hx))]

/-- A string over the alphabet `a`, `b` is already normalized: `strip`
removes nothing and `lower` fixes every character. -/
theorem pyNormalize_ab (s : String) (hmem : ∀ c ∈ s.data, c = 'a' ∨ c = 'b') :
    pyNormalize s = s := by
  have hsp : ∀ c ∈ s.data, pyIsSpace c = false := fun c hc => by
    rcases hmem c hc with rfl | rfl <;> decide
  have hstrip : pyStrip s = s := by
    rw [pyStrip]
    show (⟨((s.data.dropWhile pyIsSpace).reverse.dropWhile pyIsSpace).reverse⟩ : String) = s
    rw [dropWhile_eq_self_of_none pyIsSpace s.data hsp,
      dropWhile_eq_self_of_none pyIsSpace s.data.reverse
        (fun c hc => hsp c (List.mem_reverse.mp hc)),
      List.reverse_reverse]
  have hlower : pyLower s = s := by
    rw [pyLower]
    show (⟨s.data.map pyLowerChar⟩ : String) = s
    rw [map_eq_self_of_fixes pyLowerChar s.data
      (fun c hc => by rcases hmem c hc with rfl | rfl <;> decide)]
  rw [pyNormalize, hstrip, hlower]

/-- The query family is fixed by normalization. -/
theorem pyNormalize_encQuery (n v : ℕ) : pyNormalize (encQuery n v) = encQuery n v :=
  pyNormalize_ab (encQuery n v) (fun c hc => encBits_mem n v c hc)

/-- The cache key unfolded. -/
theorem cacheKey_eq (q : String) :
    cacheKey q = md5Hex (strEncode (pyNormalize q)) := rfl

/-- Little-endian value of the digest behind the cache key of one query of
the family. -/
def keyVal (v : ℕ) : ℕ :=
  bytesValLE (md5Digest (strEncode (pyNormalize (encQuery 129 v))))

/-- A digest has sixteen bytes, so its value is below 2¹²⁸. -/
theorem keyVal_lt (v : ℕ) : keyVal v < 2 ^ 128 := by
  have h1 := bytesValLE_lt (md5Digest (strEncode (pyNormalize (encQuery 129 v))))
    (md5Digest_lt _)
  rw [md5Digest_len] at h1
  calc keyVal v < 256 ^ 16 := h1
  _ = 2 ^ 128 := by norm_num

/-- The digest value of a family query, in `Fin (2 ^ 128)`. -/
def keyFin (i : Fin (2 ^ 129)) : Fin (2 ^ 128) := ⟨keyVal i.1, keyVal_lt i.1⟩

/-- C7 counterexample: the cache-key function cannot be injective on
normalized queries.  The keys are images of MD5 digests — sixteen bytes,
hence at most 2¹²⁸ distinct values — while there are 2¹²⁹ distinct
129-character queries over the two-letter alphabet `a`, `b`, each fixed by
normalization; by pigeonhole two distinct normalized queries share a key. -/
theorem cacheKey_not_injective :
    ¬ ∀ q1 q2 : String, pyNormalize q1 ≠ pyNormalize q2 → cacheKey q1 ≠ cacheKey q2 := by
  intro hinj
  -- a cache-key collision forces equal normalized queries, hence equal indices
  have hkey : ∀ i j : Fin (2 ^ 129),
      cacheKey (encQuery 129 i.1) = cacheKey (encQuery 129 j.1) → i = j := by
    intro i j hk
    have hnorm : pyNormalize (encQuery 129 i.1) = pyNormalize (encQuery 129 j.1) := by
      by_contra hne
      exact hinj _ _ hne hk
    rw [pyNormalize_encQuery, pyNormalize_encQuery] at hnorm
    have hbits : encBits 129 i.1 = encBits 129 j.1 := congrArg String.data hnorm
    exact Fin.ext (encBits_inj 129 i.1 j.1 i.2 j.2 hbits)
  have hG : Function.Injective keyFin := by
    intro i j hij
    simp only [keyFin, Fin.mk.injEq] at hij
    simp only [keyVal] at hij
    have hdig : md5Digest (strEncode (pyNormalize (encQuery 129 i.1))) =
        md5Digest (strEncode (pyNormalize (encQuery 129 j.1))) :=
      bytesValLE_inj _ _ (by rw [md5Digest_len, md5Digest_len])
        (md5Digest_lt _) (md5Digest_lt _) hij
    refine hkey i j ?_
    rw [cacheKey_eq, cacheKey_eq, md5Hex, md5Hex, hdig]
  have hcard := Fintype.card_le_of_injective _ hG
  rw [Fintype.card_fin, Fintype.card_fin] at hcard
  have hlt : (2 : ℕ) ^ 128 < 2 ^ 129 :=
    Nat.pow_lt_pow_right (by norm_num) (by norm_num)
  omega

/-- C7 (amended): the cache key is a deterministic function of the
normalized query — identical normalized queries always map to the same key —
but distinct normalized queries need not map to distinct keys (the 128-bit
digest cannot be injective on all strings, though collisions are
computationally negligible). -/
theorem cacheKey_deterministic (q1 q2 : String)
    (h : pyNormalize q1 = pyNormalize q2) : cacheKey q1 = cacheKey q2 := by
  rw [cacheKey, cacheKey, h]

/-- C7 witness: two different raw queries with the same normalization get
the same cache key. -/
theorem cacheKey_deterministic_witness :
    pyNormalize "A " = pyNormalize "a" ∧ cacheKey "A " = cacheKey "a" :=
  ⟨by decide, cacheKey_deterministic "A " "a" (by decide)⟩
